import Mathlib

/-! Shallow embedding of `src/ol/color.js` (OpenLayers color module) and proofs
about its parser, serializer, normalization and memoizing cache.

JavaScript numbers are modelled as `Option ℚ`: `some q` is a finite numeric
value and `none` models `NaN` (and `undefined` at the points where it flows
into the numeric operations used by this module, where it behaves exactly
like `NaN`: `undefined + x`, `Math.max(undefined, x)` and `undefined | 0`
coerce `undefined` to `NaN` first).  Every float64 the module manipulates is
a rational number and the operations used (`+`, `/`, `| 0`, `<<`,
`Math.min`, `Math.max`) are exact on the ranges involved, so `ℚ` is a
faithful carrier for them.
-/

namespace OLColor

/-- A JavaScript numeric value: `some q` is a finite number, `none` is `NaN`. -/
abbrev JSNum := Option ℚ

/-- A color value, modelling the JS array `[r, g, b, a]` (`ol.Color`). -/
abbrev Color := List JSNum

/-- Decimal digit character (`0`–`9`), by code point. -/
def isDigitCh (c : Char) : Bool :=
  decide (48 ≤ c.toNat) && decide (c.toNat ≤ 57)

/-- Hexadecimal digit character, case-insensitive (`[0-9a-fA-F]`). -/
def isHexDigitCh (c : Char) : Bool :=
  (decide (48 ≤ c.toNat) && decide (c.toNat ≤ 57)) ||
    (decide (97 ≤ c.toNat) && decide (c.toNat ≤ 102)) ||
      (decide (65 ≤ c.toNat) && decide (c.toNat ≤ 70))

/-- ASCII letter (`[a-zA-Z]`). -/
def isAlphaCh (c : Char) : Bool :=
  (decide (97 ≤ c.toNat) && decide (c.toNat ≤ 122)) ||
    (decide (65 ≤ c.toNat) && decide (c.toNat ≤ 90))

/-- Numeric value of a decimal digit character. -/
def digitVal (c : Char) : ℕ := c.toNat - 48

/-- Numeric value of a hexadecimal digit character. -/
def hexDigitVal (c : Char) : ℕ :=
  if 97 ≤ c.toNat then c.toNat - 87
  else if 65 ≤ c.toNat then c.toNat - 55
  else c.toNat - 48

/-- The natural number denoted by a run of decimal digit characters. -/
def natOfDigits (l : List Char) : ℕ := l.foldl (fun a c => 10 * a + digitVal c) 0

/-- The natural number denoted by a run of hexadecimal digit characters. -/
def hexNatOf (l : List Char) : ℕ := l.foldl (fun a c => 16 * a + hexDigitVal c) 0

/-- Strip leading and trailing spaces (the whitespace handling of the JS
`Number` and `parseInt` conversions; only `' '` is modelled). -/
def trimSpaces (l : List Char) : List Char :=
  ((l.dropWhile (fun c => c == ' ')).reverse.dropWhile (fun c => c == ' ')).reverse

/-- Core of the JS `Number(string)` conversion after trimming and sign
handling: a run of decimal digits, optionally followed by `.` and another
run, at least one digit in total.  The exponent, hex, binary and `Infinity`
forms of the full ECMAScript grammar are omitted; none of them is produced
by this module or its spec examples. -/
def jsNumberCore (u : List Char) : JSNum :=
  let i := u.takeWhile isDigitCh
  let r := u.dropWhile isDigitCh
  if r = [] then
    if i = [] then none else some (natOfDigits i)
  else if r.head? = some '.' then
    let f := r.tail
    if f.all isDigitCh = true ∧ (i ≠ [] ∨ f ≠ []) then
      some ((natOfDigits i : ℚ) + (natOfDigits f : ℚ) / 10 ^ f.length)
    else none
  else none

/-- The JS `Number(string)` conversion (`.map(Number)` in `color.js`):
trimmed-empty converts to `0`, then an optional sign and `jsNumberCore`. -/
def jsNumber (cs : List Char) : JSNum :=
  let t := trimSpaces cs
  if t = [] then some 0
  else if t.head? = some '-' then (jsNumberCore t.tail).map (fun q => -q)
  else if t.head? = some '+' then jsNumberCore t.tail
  else jsNumberCore t

/-- Core of JS `parseInt(str, 16)` after trimming and sign handling: an
optional `0x`/`0X`, then the maximal leading run of hex digits; `NaN` when
that run is empty. -/
def parseIntHexCore (u : List Char) : JSNum :=
  let u1 :=
    if 2 ≤ u.length ∧ u.getD 0 ' ' = '0' ∧ (u.getD 1 ' ' = 'x' ∨ u.getD 1 ' ' = 'X')
    then u.drop 2 else u
  let ds := u1.takeWhile isHexDigitCh
  if ds = [] then none else some ((hexNatOf ds : ℚ))

/-- JS `parseInt(str, 16)` (used by the hex branch of the parser). -/
def parseIntHex (cs : List Char) : JSNum :=
  let t := trimSpaces cs
  if t.head? = some '-' then (parseIntHexCore t.tail).map (fun q => -q)
  else if t.head? = some '+' then parseIntHexCore t.tail
  else parseIntHexCore t

/-- Truncation toward zero of a rational (step 1 of ECMAScript `ToInt32`). -/
def truncQ (q : ℚ) : ℤ := if q < 0 then ⌈q⌉ else ⌊q⌋

/-- ECMAScript `ToInt32`: truncate toward zero, wrap into signed 32 bit. -/
def toInt32 (q : ℚ) : ℤ := (truncQ q + 2 ^ 31) % 2 ^ 32 - 2 ^ 31

/-- The JS expression `x | 0` (`NaN | 0` and `undefined | 0` are `0`). -/
def orZero (x : JSNum) : ℚ :=
  match x with
  | none => 0
  | some q => (toInt32 q : ℚ)

/-- The JS expression `x << k`: `ToInt32`, shift, wrap into signed 32 bit. -/
def jshl (x : JSNum) (k : ℕ) : ℚ :=
  ((((match x with | none => 0 | some q => toInt32 q) * 2 ^ k + 2 ^ 31) % 2 ^ 32
      - 2 ^ 31 : ℤ) : ℚ)

/-- JS addition on numeric values (`NaN` propagates). -/
def jadd (x y : JSNum) : JSNum :=
  match x, y with
  | some a, some b => some (a + b)
  | _, _ => none

/-- JS division by a nonzero constant (`NaN` propagates). -/
def jdiv (x : JSNum) (c : ℚ) : JSNum := x.map (fun q => q / c)

/-- The JS expression `x + 0.5` (`NaN` propagates). -/
def addHalf (x : JSNum) : JSNum := x.map (fun q => q + 1 / 2)

/-- Modelled from the spec: `clamp(value, min, max)` from `ol/math.js`, which
is not under `src/`; §4.1a of the spec ("then clamps to [0,255]", "Clamps the
4th field (alpha) to [0,1]") describes it as restriction of the value to the
interval.  `Math.min`/`Math.max` propagate `NaN`, so `none` is preserved. -/
def clamp (x : JSNum) (lo hi : ℚ) : JSNum := x.map (fun q => min (max q lo) hi)

/-- JS array indexing `l[i]`: out-of-range access yields `undefined`, which
behaves as `NaN` (`none`) in the numeric operations applied to it here. -/
def idx (l : List JSNum) (i : ℕ) : JSNum := l.getD i none

/-- Source function `normalize` (`color.js` lines 185–192).  The `opt_color` output parameter
only chooses which array is written into and is omitted.  `clamp` is the
spec-modelled helper above. -/
def normalize (color : List JSNum) : Color :=
  [clamp (some (orZero (addHalf (idx color 0)))) 0 255,
   clamp (some (orZero (addHalf (idx color 1)))) 0 255,
   clamp (some (orZero (addHalf (idx color 2)))) 0 255,
   clamp (idx color 3) 0 1]

/-- Modelled from the spec: `assert(false, 14)` from `ol/asserts.js` (not
under `src/`) raises the single error kind `InvalidColorFormat` (§7), with
code 14 meaning "Invalid color". -/
inductive Err where
  | invalidColor
deriving DecidableEq

instance : DecidableEq (Except Err Color) := fun
  | .ok a, .ok b =>
      decidable_of_iff (a = b) (by simp)
  | .ok _, .error _ => isFalse (by simp)
  | .error _, .ok _ => isFalse (by simp)
  | .error a, .error b =>
      decidable_of_iff (a = b) (by simp)

/-- The regex `HEX_COLOR_RE_ = /^#(?:[0-9a-f]{3,4}){1,2}$/i` (`color.js` line 14).
The regex accepts a leading `#` followed by one or two runs of 3–4 hex
digits, i.e. a total hex-digit count in {3,4} (one run) or {6,7,8} (two
runs: 3+3, 3+4 or 4+3, 4+4); conversely any hex string of such a length
splits into such runs.  Note that a count of 7 IS accepted, although the
comment on the regex in the source claims it matches 3, 4, 6, or 8 digits. -/
def hexMatch (s : String) : Bool :=
  match s.data with
  | [] => false
  | c :: t =>
      c == '#' && t.all isHexDigitCh &&
        (t.length == 3 || t.length == 4 || t.length == 6 || t.length == 7 ||
          t.length == 8)

/-- The regex `NAMED_COLOR_RE_ = /^([a-z]*)$/i` (`color.js` line 23): zero or more
ASCII letters — the empty string matches. -/
def namedMatch (s : String) : Bool := s.data.all isAlphaCh

/-- Whether `p` starts `s`, on character lists, modelling `s.indexOf(p) == 0`. -/
def startsWithChars : List Char → List Char → Bool
  | [], _ => true
  | _ :: _, [] => false
  | p :: ps, c :: cs => p == c && startsWithChars ps cs

/-- The JS test `s.indexOf(p) == 0` for a nonempty literal `p`. -/
def startsWithStr (s p : String) : Bool := startsWithChars p.data s.data

/-- The JS `str.split(',')` on character lists (splitting on a single-character
separator; `"".split(',')` is `[""]`). -/
def splitComma : List Char → List (List Char)
  | [] => [[]]
  | c :: rest =>
      if c == ',' then [] :: splitComma rest
      else
        match splitComma rest with
        | [] => [[c]]
        | f :: fs => (c :: f) :: fs

/-- The body of `fromStringInternal_` after the named-color substitution
(`color.js` lines 139–175): hex branch, `rgba()` branch, `rgb()` branch,
and the failing `assert` otherwise.  `s.slice(5, -1)` is `drop 5` composed
with `dropLast`, and `s.substr(p, d)` is `take d` after `drop p`. -/
def parseResolved (s : String) : Except Err Color :=
  if hexMatch s then
    let n := s.length - 1
    let d : ℕ := if n ≤ 4 then 1 else 2
    let hasAlpha : Bool := n == 4 || n == 8
    let r0 := parseIntHex ((s.data.drop (1 + 0 * d)).take d)
    let g0 := parseIntHex ((s.data.drop (1 + 1 * d)).take d)
    let b0 := parseIntHex ((s.data.drop (1 + 2 * d)).take d)
    let a0 := if hasAlpha then parseIntHex ((s.data.drop (1 + 3 * d)).take d)
              else some 255
    let r := if d = 1 then jadd (some (jshl r0 4)) r0 else r0
    let g := if d = 1 then jadd (some (jshl g0 4)) g0 else g0
    let b := if d = 1 then jadd (some (jshl b0 4)) b0 else b0
    let a := if d = 1 then (if hasAlpha then jadd (some (jshl a0 4)) a0 else a0)
             else a0
    .ok [r, g, b, jdiv a 255]
  else if startsWithStr s "rgba(" then
    .ok (normalize ((splitComma ((s.data.drop 5).dropLast)).map jsNumber))
  else if startsWithStr s "rgb(" then
    .ok (normalize ((splitComma ((s.data.drop 4).dropLast)).map jsNumber ++ [some 1]))
  else
    .error Err.invalidColor

/-- Source function `fromStringInternal_` (`color.js` lines 132–176).  The named-color branch
reassigns `s = fromNamed(s)`; `fromNamed` resolves a name through the host
DOM, which the spec (§1, §6) designates as the external collaborator
`resolveNamedColor`, so it is passed in as the opaque function `resolve`. -/
def fromStringInternal (resolve : String → String) (s : String) : Except Err Color :=
  parseResolved (if namedMatch s then resolve s else s)

/-- Decimal digit characters of a natural number, most significant first. -/
def natToChars (n : ℕ) : List Char :=
  if n = 0 then ['0'] else ((Nat.digits 10 n).map Nat.digitChar).reverse

/-- Characters of the default JS number-to-string conversion of a nonnegative
rational.  An integer prints as its digits.  A non-integral value prints as
`<int part>.<k fractional digits>` where `k = q.den`: whenever
`q.den ∣ 10 ^ k` — which holds with `k = q.den` for every finite-decimal
rational, hence for every float64 value — this is a finite decimal expansion
of `q`.  The actual JS printer emits the shortest such expansion; the two
differ only in trailing zeros, which `Number` reads back to the same value,
and on rationals that are not finite decimals, which no float64 value is. -/
def nonnegToChars (q : ℚ) : List Char :=
  if q.den = 1 then natToChars q.num.toNat
  else
    let k := q.den
    let n := (q * (10 : ℚ) ^ k).num.toNat
    natToChars (n / 10 ^ k) ++
      '.' :: (List.replicate (k - (natToChars (n % 10 ^ k)).length) '0' ++
        natToChars (n % 10 ^ k))

/-- JS number-to-string conversion (the implicit coercion of a number to a
string during concatenation in `toString`). -/
def numToChars (q : ℚ) : List Char :=
  if q < 0 then '-' :: nonnegToChars (-q) else nonnegToChars q

/-- JS value-to-string conversion: `NaN` prints as `NaN`. -/
def jsValToChars (x : JSNum) : List Char :=
  match x with
  | none => ['N', 'a', 'N']
  | some q => numToChars q

/-- The per-channel fix-up in `toString`: `if (r != (r | 0)) r = (r + 0.5) | 0`.
For `NaN` and `undefined` the comparison is true and the fix-up yields `0`. -/
def fixChannel (x : JSNum) : ℚ :=
  match x with
  | none => 0
  | some q => if q = (toInt32 q : ℚ) then q else (toInt32 (q + 1 / 2) : ℚ)

/-- Source function `toString` (`color.js` lines 199–214): round each non-integral channel by
add-0.5-truncate, default an absent alpha (`color[3] === undefined`) to `1`,
and emit `rgba(<r>,<g>,<b>,<a>)`. -/
def toString (color : Color) : String :=
  let r := fixChannel (idx color 0)
  let g := fixChannel (idx color 1)
  let b := fixChannel (idx color 2)
  let a : JSNum := if 3 < color.length then idx color 3 else some 1
  String.mk ("rgba(".data ++ numToChars r ++ ',' :: numToChars g ++ ',' ::
    numToChars b ++ ',' :: jsValToChars a ++ [')'])

/-- The constant `MAX_CACHE_SIZE` (`color.js` line 70). -/
def MAX_CACHE_SIZE : ℕ := 1024

/-- The closure state of `fromString`: the `cache` object together with the
separately maintained `cacheSize` counter.  The JS object is modelled as an
insertion-ordered association list: `for (key in cache)` enumerates string
keys in insertion order (every key ever inserted comes from a successfully
parsed string, which necessarily contains a non-digit character, so no key
is an array-index-like key that JS would enumerate first). -/
structure CacheState where
  cache : List (String × Color)
  cacheSize : ℕ

/-- The empty initial cache of the module. -/
def initialCache : CacheState := ⟨[], 0⟩

/-- The JS `cache.hasOwnProperty(s)` combined with the read `cache[s]`. -/
def getEntry : List (String × Color) → String → Option Color
  | [], _ => none
  | e :: r, s => if e.1 = s then some e.2 else getEntry r s

/-- The eviction loop of `fromString` (`color.js` lines 95–102): enumerate the
entries with a counter `i` starting at `0` and delete — decrementing the size
counter — every entry at which `i++ & 3 === 0`.  Returns the surviving
entries and the updated counter. -/
def evictLoop : ℕ → ℕ → List (String × Color) → List (String × Color) × ℕ
  | _, sz, [] => ([], sz)
  | i, sz, e :: r =>
      if i &&& 3 = 0 then evictLoop (i + 1) (sz - 1) r
      else
        let p := evictLoop (i + 1) sz r
        (e :: p.1, p.2)

/-- The memoized `fromString` (`color.js` lines 57–110): on a hit, return the
cached tuple and leave the state unchanged; on a miss, first bulk-evict if
the counter has reached `MAX_CACHE_SIZE`, then parse — a failure propagates
without inserting anything, a success is inserted (appended, i.e. last in
enumeration order) under the verbatim input string. -/
def fromString (resolve : String → String) (st : CacheState) (s : String) :
    Except Err Color × CacheState :=
  match getEntry st.cache s with
  | some color => (.ok color, st)
  | none =>
      let p := if MAX_CACHE_SIZE ≤ st.cacheSize
               then evictLoop 0 st.cacheSize st.cache
               else (st.cache, st.cacheSize)
      match fromStringInternal resolve s with
      | .error e => (.error e, ⟨p.1, p.2⟩)
      | .ok color => (.ok color, ⟨p.1 ++ [(s, color)], p.2 + 1⟩)

/-- Run a sequence of cache lookups from a given state, returning the final
state. -/
def runLookups (resolve : String → String) : CacheState → List String → CacheState
  | st, [] => st
  | st, s :: rest => runLookups resolve (fromString resolve st s).2 rest

/-- Position-indexed enumeration of a list, positions starting at `i`. -/
def enumFrom {α : Type} (i : ℕ) : List α → List (ℕ × α)
  | [] => []
  | x :: r => (i, x) :: enumFrom (i + 1) r

/-- A trivial named-color resolver, used to instantiate closed statements on
inputs whose parse never consults the resolver. -/
def idResolve : String → String := fun s => s

/-! Arithmetic helper lemmas -/

lemma toInt32_int_addHalf (z : ℤ) (h0 : 0 ≤ z) (h1 : z ≤ 255) :
    toInt32 ((z : ℚ) + 1 / 2) = z := by
  have hz : (0 : ℚ) ≤ (z : ℚ) := by exact_mod_cast h0
  have hlt : ¬ ((z : ℚ) + 1 / 2 < 0) := by
    push_neg
    linarith
  have hfl : ⌊(z : ℚ) + 1 / 2⌋ = z := by
    rw [add_comm, Int.floor_add_int]
    norm_num
  unfold toInt32 truncQ
  rw [if_neg hlt, hfl]
  omega

lemma clamp255_int (z : ℤ) :
    min (max ((z : ℚ)) 0) 255 = ((min (max z 0) 255 : ℤ) : ℚ) := by
  push_cast
  rfl

lemma normalize_channel (x : JSNum) :
    ∃ z : ℤ, 0 ≤ z ∧ z ≤ 255 ∧
      clamp (some (orZero (addHalf x))) 0 255 = some ((z : ℚ)) := by
  obtain ⟨w, hw⟩ : ∃ w : ℤ, orZero (addHalf x) = (w : ℚ) := by
    cases x with
    | none => exact ⟨0, by simp [addHalf, orZero]⟩
    | some q => exact ⟨toInt32 (q + 1 / 2), by simp [addHalf, orZero]⟩
  refine ⟨min (max w 0) 255, by omega, by omega, ?_⟩
  simp only [clamp, Option.map_some']
  rw [hw, clamp255_int]

lemma channel_fixed (z : ℤ) (h0 : 0 ≤ z) (h1 : z ≤ 255) :
    clamp (some (orZero (addHalf (some ((z : ℚ)))))) 0 255 = some ((z : ℚ)) := by
  have hz0 : (0 : ℚ) ≤ (z : ℚ) := by exact_mod_cast h0
  have hz1 : ((z : ℚ)) ≤ 255 := by exact_mod_cast h1
  simp only [addHalf, Option.map_some', orZero, clamp,
    toInt32_int_addHalf z h0 h1]
  rw [max_eq_left hz0, min_eq_left hz1]

lemma clamp01_idem (x : JSNum) : clamp (clamp x 0 1) 0 1 = clamp x 0 1 := by
  cases x with
  | none => rfl
  | some q =>
    simp only [clamp, Option.map_some']
    have h0 : (0 : ℚ) ≤ min (max q 0) 1 := le_min (le_max_right q 0) zero_le_one
    have h1 : min (max q 0) 1 ≤ 1 := min_le_right _ _
    rw [max_eq_left h0, min_eq_left h1]

/-- Claim C9: `normalize` is idempotent: for every 4-element numeric tuple `c`,
`normalize (normalize c) = normalize c`, where `normalize` rounds the first
three fields by add-0.5-then-truncate-toward-zero, clamps them to `[0, 255]`,
and clamps the fourth field to `[0, 1]` without rounding. -/
theorem normalize_idempotent (c : List JSNum) (h : c.length = 4) :
    normalize (normalize c) = normalize c := by
  clear h
  obtain ⟨z0, h00, h01, e0⟩ := normalize_channel (idx c 0)
  obtain ⟨z1, h10, h11, e1⟩ := normalize_channel (idx c 1)
  obtain ⟨z2, h20, h21, e2⟩ := normalize_channel (idx c 2)
  have l0 : idx (normalize c) 0 = some ((z0 : ℚ)) := by
    simpa only [normalize, idx, List.getD_cons_zero] using e0
  have l1 : idx (normalize c) 1 = some ((z1 : ℚ)) := by
    simpa only [normalize, idx, List.getD_cons_succ, List.getD_cons_zero] using e1
  have l2 : idx (normalize c) 2 = some ((z2 : ℚ)) := by
    simpa only [normalize, idx, List.getD_cons_succ, List.getD_cons_zero] using e2
  have l3 : idx (normalize c) 3 = clamp (idx c 3) 0 1 := by
    simp only [normalize, idx, List.getD_cons_succ, List.getD_cons_zero]
  calc normalize (normalize c)
      = [clamp (some (orZero (addHalf (idx (normalize c) 0)))) 0 255,
         clamp (some (orZero (addHalf (idx (normalize c) 1)))) 0 255,
         clamp (some (orZero (addHalf (idx (normalize c) 2)))) 0 255,
         clamp (idx (normalize c) 3) 0 1] := rfl
    _ = [clamp (some (orZero (addHalf (idx c 0)))) 0 255,
         clamp (some (orZero (addHalf (idx c 1)))) 0 255,
         clamp (some (orZero (addHalf (idx c 2)))) 0 255,
         clamp (idx c 3) 0 1] := by
          rw [l0, l1, l2, l3, channel_fixed z0 h00 h01, channel_fixed z1 h10 h11,
            channel_fixed z2 h20 h21, clamp01_idem, e0, e1, e2]
    _ = normalize c := rfl

/-- Witness for C9 at the concrete tuple `[300, -10, 1/2, 2]`. -/
theorem normalize_idempotent_witness :
    ([some (300 : ℚ), some (-10), some (1 / 2), some 2] : List JSNum).length = 4 ∧
      normalize (normalize [some (300 : ℚ), some (-10), some (1 / 2), some 2]) =
        normalize [some (300 : ℚ), some (-10), some (1 / 2), some 2] :=
  ⟨rfl, normalize_idempotent _ rfl⟩

/-- Claim C1: contrary to the claim (and to the comment on `HEX_COLOR_RE_` in
the source), the hex branch IS taken for a `#` followed by 7 hex digits:
`(?:[0-9a-f]{3,4}){1,2}` matches 7 digits as a run of 3 plus a run of 4.
On `"#1234567"` the branch decodes with `d = 2`, reads the three 2-digit
groups `12`, `34`, `56` (ignoring the seventh digit) and, since 7 is neither
4 nor 8, defaults alpha to 255, yielding `[0x12, 0x34, 0x56, 1]`. -/
theorem hex_branch_accepts_seven_digits :
    hexMatch "#1234567" = true ∧
      ∀ resolve : String → String,
        fromStringInternal resolve "#1234567" =
          .ok [some 18, some 52, some 86, some 1] := by
  refine ⟨by decide, fun resolve => ?_⟩
  have hn : namedMatch "#1234567" = false := by decide
  simp +decide [fromStringInternal, hn, parseResolved, parseIntHex,
    parseIntHexCore, trimSpaces, hexNatOf, hexDigitVal, jadd, jshl, jdiv,
    toInt32, truncQ]

/-- Counterexample for C2: `parse("rgb(1,2)")` does not fail — the
`rgb()` branch never checks the number of comma-separated fields.  The two
fields parse to `1` and `2`, the appended opacity `1` becomes the third
channel, and the absent fourth element (`undefined`) is clamped to `NaN`,
so the call returns the tuple `[1, 2, 1, NaN]`. -/
theorem rgb_wrong_arity_not_rejected :
    fromStringInternal idResolve "rgb(1,2)" = .ok [some 1, some 2, some 1, none] ∧
      fromStringInternal idResolve "rgb(1,2)" ≠ .error Err.invalidColor := by
  have h : fromStringInternal idResolve "rgb(1,2)" =
      .ok [some 1, some 2, some 1, none] := by
    simp +decide [fromStringInternal, parseResolved, normalize, clamp, idx,
      addHalf, orZero, toInt32, truncQ, splitComma, jsNumber, jsNumberCore,
      trimSpaces, natOfDigits, digitVal]
    norm_num [max_def, min_def]
  exact ⟨h, by rw [h]; exact fun hc => Except.noConfusion hc⟩

/-- Claim C2 (amended): `parse("#12345")` (5 hex digits) fails with
`InvalidColorFormat`, but `parse("rgb(1,2)")` does NOT fail: the `rgb()`
branch performs no arity check and returns the tuple `[1, 2, 1, NaN]`
(the missing fourth field enters `normalize` as `undefined` and its clamp
produces `NaN`). -/
theorem rejection_amended :
    (∀ resolve : String → String,
        fromStringInternal resolve "#12345" = .error Err.invalidColor) ∧
      ∀ resolve : String → String,
        fromStringInternal resolve "rgb(1,2)" = .ok [some 1, some 2, some 1, none] := by
  constructor
  · intro resolve
    have hn : namedMatch "#12345" = false := by decide
    simp +decide [fromStringInternal, hn, parseResolved]
  · intro resolve
    have hn : namedMatch "rgb(1,2)" = false := by decide
    simp +decide [fromStringInternal, hn, parseResolved, normalize, clamp, idx,
      addHalf, orZero, toInt32, truncQ, splitComma, jsNumber, jsNumberCore,
      trimSpaces, natOfDigits, digitVal]
    norm_num [max_def, min_def]

/-- Claim C8: out-of-range `rgba()` fields are clamped during parsing:
`parse("rgba(300,-10,128,2)")` yields exactly `[255, 0, 128, 1]` (`300`
clamps down to 255, `-10` — rounded to `-9` by add-0.5-truncate-toward-zero —
clamps up to 0, and alpha `2` clamps down to 1). -/
theorem rgba_out_of_range_clamped :
    ∀ resolve : String → String,
      fromStringInternal resolve "rgba(300,-10,128,2)" =
        .ok [some 255, some 0, some 128, some 1] := by
  intro resolve
  have hn : namedMatch "rgba(300,-10,128,2)" = false := by decide
  simp +decide [fromStringInternal, hn, parseResolved, normalize, clamp, idx,
    addHalf, orZero, toInt32, truncQ, splitComma, jsNumber, jsNumberCore,
    trimSpaces, natOfDigits, digitVal]
  norm_num [neg_div, Int.ceil_neg, max_def, min_def]

/-! Hex digit helper lemmas -/

lemma isHexDigitCh_bounds {c : Char} (h : isHexDigitCh c = true) :
    (48 ≤ c.toNat ∧ c.toNat ≤ 57) ∨ (97 ≤ c.toNat ∧ c.toNat ≤ 102) ∨
      (65 ≤ c.toNat ∧ c.toNat ≤ 70) := by
  simpa [isHexDigitCh, Bool.or_eq_true, Bool.and_eq_true, decide_eq_true_eq,
    or_assoc] using h

lemma hexDigitVal_le {c : Char} (h : isHexDigitCh c = true) : hexDigitVal c ≤ 15 := by
  have := isHexDigitCh_bounds h
  unfold hexDigitVal
  split_ifs <;> omega

lemma hex_char_ne {c : Char} (h : isHexDigitCh c = true) {d : Char}
    (hd : isHexDigitCh d = false) : ¬ c = d := by
  intro hc
  subst hc
  rw [h] at hd
  exact absurd hd (by decide)

lemma parseIntHex_single {c : Char} (h : isHexDigitCh c = true) :
    parseIntHex [c] = some ((hexDigitVal c : ℚ)) := by
  have hsp : (c == ' ') = false := beq_eq_false_iff_ne.mpr (hex_char_ne h (by decide))
  have hm : ¬ c = '-' := hex_char_ne h (by decide)
  have hp : ¬ c = '+' := hex_char_ne h (by decide)
  have htrim : trimSpaces [c] = [c] := by
    simp [trimSpaces, List.dropWhile, hsp]
  simp [parseIntHex, htrim, hm, hp, parseIntHexCore, List.takeWhile, h, hexNatOf]

lemma toInt32_natCast {n : ℕ} (h : n < 2 ^ 31) : toInt32 ((n : ℚ)) = n := by
  unfold toInt32 truncQ
  rw [if_neg (not_lt.mpr (by positivity)), Int.floor_natCast]
  omega

lemma jshl_nat {n : ℕ} (h : n ≤ 15) :
    jshl (some ((n : ℚ))) 4 = ((16 * n : ℕ) : ℚ) := by
  have ht := toInt32_natCast (n := n) (lt_of_le_of_lt h (by norm_num))
  simp only [jshl, ht]
  have he : ((n : ℤ) * 2 ^ 4 + 2 ^ 31) % 2 ^ 32 - 2 ^ 31 = 16 * n := by omega
  rw [he]
  push_cast
  ring

/-- Claim C5: short-hex nibble doubling.  For a `#` followed by three hex
digits, each decoded nibble `v` expands to `v * 16 + v`; concretely
`parse("#f00")` yields `[255, 0, 0, 1]` and `parse("#f00a")` yields a tuple
whose alpha is `170/255` (digit `a` expands to `0xaa = 170`). -/
theorem short_hex_expansion :
    (∀ (resolve : String → String) (c1 c2 c3 : Char),
        isHexDigitCh c1 = true → isHexDigitCh c2 = true → isHexDigitCh c3 = true →
        fromStringInternal resolve (String.mk ['#', c1, c2, c3]) =
          .ok [some ((hexDigitVal c1 : ℚ) * 16 + hexDigitVal c1),
               some ((hexDigitVal c2 : ℚ) * 16 + hexDigitVal c2),
               some ((hexDigitVal c3 : ℚ) * 16 + hexDigitVal c3), some 1]) ∧
      fromStringInternal idResolve "#f00" = .ok [some 255, some 0, some 0, some 1] ∧
      fromStringInternal idResolve "#f00a" =
        .ok [some 255, some 0, some 0, some (170 / 255)] := by
  refine ⟨fun resolve c1 c2 c3 h1 h2 h3 => ?_, ?_, ?_⟩
  · have hn : namedMatch (String.mk ['#', c1, c2, c3]) = false := by
      simp [namedMatch, List.all_cons, show isAlphaCh '#' = false from by decide]
    have hhex : hexMatch (String.mk ['#', c1, c2, c3]) = true := by
      simp [hexMatch, h1, h2, h3]
    have hv1 := hexDigitVal_le h1
    have hv2 := hexDigitVal_le h2
    have hv3 := hexDigitVal_le h3
    simp only [fromStringInternal, hn, Bool.false_eq_true, if_false, parseResolved,
      hhex, if_true]
    norm_num [parseIntHex_single, h1, h2, h3, jshl_nat, hv1, hv2, hv3, jadd, jdiv,
      List.drop, List.take]
    ring_nf
    norm_num
  · simp +decide [fromStringInternal, parseResolved, parseIntHex, parseIntHexCore,
      trimSpaces, hexNatOf, hexDigitVal, jadd, jshl, jdiv, toInt32, truncQ]
    norm_num
  · simp +decide [fromStringInternal, parseResolved, parseIntHex, parseIntHexCore,
      trimSpaces, hexNatOf, hexDigitVal, jadd, jshl, jdiv, toInt32, truncQ]
    norm_num

/-- Witness for C5 at the concrete digits `1`, `2`, `3`. -/
theorem short_hex_expansion_witness :
    isHexDigitCh '1' = true ∧ isHexDigitCh '2' = true ∧ isHexDigitCh '3' = true ∧
      fromStringInternal idResolve (String.mk ['#', '1', '2', '3']) =
        .ok [some ((hexDigitVal '1' : ℚ) * 16 + hexDigitVal '1'),
             some ((hexDigitVal '2' : ℚ) * 16 + hexDigitVal '2'),
             some ((hexDigitVal '3' : ℚ) * 16 + hexDigitVal '3'), some 1] :=
  ⟨by decide, by decide, by decide,
    short_hex_expansion.1 idResolve '1' '2' '3' (by decide) (by decide) (by decide)⟩

/-- Claim C10: the named-color pattern `/^([a-z]*)$/i` matches zero or more
letters, so it matches the empty string: `parse("")` replaces the input by
`resolve("")` and continues with it, for every resolver; the outcome is then
entirely determined by what the resolver returns (e.g. `"#fff"` leads to
white, while an unparsable replacement leads to `InvalidColorFormat`). -/
theorem empty_string_goes_to_resolver :
    namedMatch "" = true ∧
      (∀ resolve : String → String,
          fromStringInternal resolve "" = parseResolved (resolve "")) ∧
      fromStringInternal (fun _ => "#fff") "" =
        .ok [some 255, some 255, some 255, some 1] ∧
      fromStringInternal (fun _ => "zzz(") "" = .error Err.invalidColor := by
  refine ⟨by decide, fun resolve => ?_, ?_, by decide⟩
  · simp [fromStringInternal, namedMatch]
  · show parseResolved "#fff" = _
    simp +decide [parseResolved, parseIntHex, parseIntHexCore, trimSpaces,
      hexNatOf, hexDigitVal, jadd, jshl, jdiv, toInt32, truncQ]
    norm_num

/-! Cache lemmas -/

lemma and_three_eq_mod (n : ℕ) : n &&& 3 = n % 4 := by
  apply Nat.eq_of_testBit_eq
  intro i
  have h4 : (4 : ℕ) = 2 ^ 2 := by norm_num
  rw [h4, Nat.testBit_mod_two_pow, Nat.testBit_and]
  have h3 : Nat.testBit 3 i = decide (i < 2) := by
    rcases i with _ | _ | k
    · decide
    · decide
    · have h1 : (2 : ℕ) ^ 2 ≤ 2 ^ (k + 2) :=
        Nat.pow_le_pow_right (by norm_num) (by omega)
      have hlt : (3 : ℕ) < 2 ^ (k + 2) := by
        norm_num at h1
        omega
      simp [Nat.testBit_lt_two_pow hlt]
  rw [h3, Bool.and_comm]

lemma evictLoop_len_le (l : List (String × Color)) :
    ∀ i sz, (evictLoop i sz l).1.length ≤ l.length := by
  induction l with
  | nil => intro i sz; simp [evictLoop]
  | cons e r ih =>
    intro i sz
    simp only [evictLoop]
    split_ifs with hi
    · exact le_trans (ih (i + 1) (sz - 1)) (by simp)
    · simpa using ih (i + 1) sz

lemma evictLoop_size (l : List (String × Color)) :
    ∀ i sz, l.length ≤ sz →
      (evictLoop i sz l).2 = sz - (l.length - (evictLoop i sz l).1.length) := by
  induction l with
  | nil => intro i sz h; simp [evictLoop]
  | cons e r ih =>
    intro i sz h
    simp only [List.length_cons] at h
    simp only [evictLoop]
    split_ifs with hi
    · have hlen := evictLoop_len_le r (i + 1) (sz - 1)
      have := ih (i + 1) (sz - 1) (by omega)
      simp only [List.length_cons]
      omega
    · have hlen := evictLoop_len_le r (i + 1) sz
      have := ih (i + 1) sz (by omega)
      simp only [List.length_cons]
      omega

lemma evictLoop_subset (l : List (String × Color)) :
    ∀ i sz x, x ∈ (evictLoop i sz l).1 → x ∈ l := by
  induction l with
  | nil => intro i sz x h; simpa [evictLoop] using h
  | cons e r ih =>
    intro i sz x h
    simp only [evictLoop] at h
    split_ifs at h with hi
    · exact List.mem_cons_of_mem _ (ih (i + 1) (sz - 1) x h)
    · rcases List.mem_cons.mp h with rfl | hx
      · exact List.mem_cons_self _ _
      · exact List.mem_cons_of_mem _ (ih (i + 1) sz x hx)

lemma evictLoop_zero_lt {l : List (String × Color)} (h : l ≠ []) (sz : ℕ) :
    (evictLoop 0 sz l).1.length < l.length := by
  cases l with
  | nil => exact absurd rfl h
  | cons e r =>
    have h0 : evictLoop 0 sz (e :: r) = evictLoop 1 (sz - 1) r := by
      simp [evictLoop]
    rw [h0]
    have := evictLoop_len_le r 1 (sz - 1)
    simp only [List.length_cons]
    omega

lemma evictLoop_kept (l : List (String × Color)) :
    ∀ i sz, (evictLoop i sz l).1 =
      ((enumFrom i l).filter (fun p => !(p.1 % 4 == 0))).map Prod.snd := by
  induction l with
  | nil => intro i sz; simp [evictLoop, enumFrom]
  | cons e r ih =>
    intro i sz
    by_cases hi : i % 4 = 0
    · simp [evictLoop, and_three_eq_mod, hi, enumFrom, ih]
    · simp [evictLoop, and_three_eq_mod, hi, enumFrom, ih]

lemma getEntry_mem {l : List (String × Color)} {s : String} {c : Color}
    (h : getEntry l s = some c) : (s, c) ∈ l := by
  induction l with
  | nil => exact absurd h (by simp [getEntry])
  | cons e r ih =>
    rw [getEntry] at h
    split_ifs at h with he
    · obtain ⟨k, v⟩ := e
      obtain rfl : v = c := by injection h
      obtain rfl : k = s := he
      exact List.mem_cons_self _ _
    · exact List.mem_cons_of_mem _ (ih h)

lemma getEntry_none_iff {l : List (String × Color)} {s : String} :
    getEntry l s = none ↔ ∀ c, (s, c) ∉ l := by
  induction l with
  | nil => simp [getEntry]
  | cons e r ih =>
    obtain ⟨k, v⟩ := e
    rw [getEntry]
    by_cases he : k = s
    · subst he
      rw [if_pos rfl]
      constructor
      · intro h; cases h
      · intro hall
        exact absurd (List.mem_cons_self _ _) (hall v)
    · rw [if_neg he, ih]
      constructor
      · intro hall c hc
        rcases List.mem_cons.mp hc with hh | ht
        · injection hh with hk hv
          exact he hk.symm
        · exact hall c ht
      · intro hall c hc
        exact hall c (List.mem_cons_of_mem _ hc)

/-- The invariant maintained by every cache lookup: the size counter agrees
with the entry count, the entry count is within the bound, and every cached
tuple is precisely the fresh parse of its key. -/
def Wf (resolve : String → String) (st : CacheState) : Prop :=
  st.cacheSize = st.cache.length ∧ st.cache.length ≤ MAX_CACHE_SIZE ∧
    ∀ s c, (s, c) ∈ st.cache → fromStringInternal resolve s = .ok c

lemma Wf_initial (resolve : String → String) : Wf resolve initialCache :=
  ⟨rfl, by simp [initialCache, MAX_CACHE_SIZE], by simp [initialCache]⟩

lemma Wf_fromString {resolve : String → String} {st : CacheState}
    (h : Wf resolve st) (s : String) : Wf resolve (fromString resolve st s).2 := by
  obtain ⟨hsz, hle, hmem⟩ := h
  unfold fromString
  cases hget : getEntry st.cache s with
  | some color => exact ⟨hsz, hle, hmem⟩
  | none =>
    by_cases hcap : MAX_CACHE_SIZE ≤ st.cacheSize
    · have hnil : st.cache ≠ [] := by
        intro hn
        rw [hn] at hsz
        simp only [List.length_nil] at hsz
        rw [hsz] at hcap
        simp [MAX_CACHE_SIZE] at hcap
      have hlt := evictLoop_zero_lt hnil st.cacheSize
      have hlen := evictLoop_len_le st.cache 0 st.cacheSize
      have hsize := evictLoop_size st.cache 0 st.cacheSize (le_of_eq hsz.symm)
      simp only [if_pos hcap]
      cases hparse : fromStringInternal resolve s with
      | error e =>
        refine ⟨?_, ?_, fun s' c' hc' => ?_⟩
        · show (evictLoop 0 st.cacheSize st.cache).2 =
            (evictLoop 0 st.cacheSize st.cache).1.length
          omega
        · show (evictLoop 0 st.cacheSize st.cache).1.length ≤ MAX_CACHE_SIZE
          omega
        · exact hmem s' c' (evictLoop_subset _ _ _ _ hc')
      | ok color =>
        refine ⟨?_, ?_, fun s' c' hc' => ?_⟩
        · show (evictLoop 0 st.cacheSize st.cache).2 + 1 =
            ((evictLoop 0 st.cacheSize st.cache).1 ++ [(s, color)]).length
          rw [List.length_append, List.length_singleton]
          omega
        · show ((evictLoop 0 st.cacheSize st.cache).1 ++ [(s, color)]).length ≤
            MAX_CACHE_SIZE
          rw [List.length_append, List.length_singleton]
          omega
        · rcases List.mem_append.mp hc' with hold | hnew
          · exact hmem s' c' (evictLoop_subset _ _ _ _ hold)
          · have heq := List.mem_singleton.mp hnew
            injection heq with h1 h2
            subst h1
            subst h2
            exact hparse
    · simp only [if_neg hcap]
      cases hparse : fromStringInternal resolve s with
      | error e => exact ⟨hsz, hle, hmem⟩
      | ok color =>
        have hlt2 : st.cache.length < MAX_CACHE_SIZE := by omega
        refine ⟨?_, ?_, fun s' c' hc' => ?_⟩
        · show st.cacheSize + 1 = (st.cache ++ [(s, color)]).length
          rw [List.length_append, List.length_singleton]
          omega
        · show (st.cache ++ [(s, color)]).length ≤ MAX_CACHE_SIZE
          rw [List.length_append, List.length_singleton]
          omega
        · rcases List.mem_append.mp hc' with hold | hnew
          · exact hmem s' c' hold
          · have heq := List.mem_singleton.mp hnew
            injection heq with h1 h2
            subst h1
            subst h2
            exact hparse

lemma fromString_fst {resolve : String → String} {st : CacheState}
    (h : Wf resolve st) (s : String) :
    (fromString resolve st s).1 = fromStringInternal resolve s := by
  obtain ⟨hsz, hle, hmem⟩ := h
  unfold fromString
  cases hget : getEntry st.cache s with
  | some color => exact (hmem s color (getEntry_mem hget)).symm
  | none =>
    cases hparse : fromStringInternal resolve s with
    | error e => simp [hparse]
    | ok color => simp [hparse]

lemma Wf_runLookups {resolve : String → String} :
    ∀ (trace : List String) (st : CacheState),
      Wf resolve st → Wf resolve (runLookups resolve st trace) := by
  intro trace
  induction trace with
  | nil => intro st h; exact h
  | cons s rest ih =>
    intro st h
    exact ih _ (Wf_fromString h s)

/-- Claim C3: starting from the empty cache, after any sequence of lookups the
number of cache entries is at most `MAX_CACHE_SIZE` (1024); and whenever a
miss occurs with the size counter at or above the maximum, a single bulk pass
keeps exactly the entries at enumeration positions `i` with `i % 4 ≠ 0`
(deleting positions 0, 4, 8, …) before the new entry, if any, is appended. -/
theorem cache_bound_and_eviction :
    (∀ (resolve : String → String) (trace : List String),
        (runLookups resolve initialCache trace).cache.length ≤ MAX_CACHE_SIZE) ∧
      ∀ (resolve : String → String) (st : CacheState) (s : String),
        getEntry st.cache s = none → MAX_CACHE_SIZE ≤ st.cacheSize →
        (fromString resolve st s).2.cache =
          ((enumFrom 0 st.cache).filter (fun p => !(p.1 % 4 == 0))).map Prod.snd ++
            (match fromStringInternal resolve s with
             | .ok color => [(s, color)]
             | .error _ => []) := by
  constructor
  · intro resolve trace
    exact (Wf_runLookups trace initialCache (Wf_initial resolve)).2.1
  · intro resolve st s hget hcap
    unfold fromString
    rw [hget]
    simp only [if_pos hcap]
    cases hparse : fromStringInternal resolve s with
    | error e => simp [evictLoop_kept]
    | ok color => simp [evictLoop_kept]

/-- Witness for C3: a one-lookup trace, and a miss on a state whose size
counter sits at the maximum. -/
theorem cache_bound_and_eviction_witness :
    (runLookups idResolve initialCache ["#f00"]).cache.length ≤ MAX_CACHE_SIZE ∧
      getEntry ([(("x" : String), ([] : Color))]) "#f00" = none ∧
      MAX_CACHE_SIZE ≤ (1024 : ℕ) ∧
      (fromString idResolve ⟨[(("x" : String), ([] : Color))], 1024⟩ "#f00").2.cache =
        ((enumFrom 0 [(("x" : String), ([] : Color))]).filter
            (fun p => !(p.1 % 4 == 0))).map Prod.snd ++
          (match fromStringInternal idResolve "#f00" with
           | .ok color => [("#f00", color)]
           | .error _ => []) :=
  ⟨cache_bound_and_eviction.1 idResolve ["#f00"], by decide, by decide,
    cache_bound_and_eviction.2 idResolve ⟨[("x", [])], 1024⟩ "#f00" (by decide)
      (by decide)⟩

/-- Claim C6: memoization is transparent: after any sequence of lookups from
the empty cache, looking any string up returns exactly what a fresh uncached
parse of it returns (in particular, element-wise equal tuples on success),
regardless of prior eviction activity. -/
theorem cache_transparent :
    ∀ (resolve : String → String) (trace : List String) (s : String),
      (fromString resolve (runLookups resolve initialCache trace) s).1 =
        fromStringInternal resolve s := by
  intro resolve trace s
  exact fromString_fst (Wf_runLookups trace initialCache (Wf_initial resolve)) s

/-- Claim C7: parse failures are not memoized: after any sequence of lookups
from the empty cache, if a fresh parse of `s` fails then looking `s` up
propagates that failure, leaves no entry keyed by `s` in the cache, and a
subsequent lookup of `s` parses again (and fails the same way). -/
theorem failures_not_memoized :
    ∀ (resolve : String → String) (trace : List String) (s : String) (e : Err),
      fromStringInternal resolve s = .error e →
      (fromString resolve (runLookups resolve initialCache trace) s).1 = .error e ∧
        getEntry (fromString resolve (runLookups resolve initialCache trace) s).2.cache
            s = none ∧
        (fromString resolve
            (fromString resolve (runLookups resolve initialCache trace) s).2 s).1 =
          .error e := by
  intro resolve trace s e hparse
  have hwf := Wf_runLookups trace initialCache (Wf_initial resolve)
  have hfst := fromString_fst hwf s
  have hwf2 := Wf_fromString hwf s
  have hnone : getEntry (fromString resolve (runLookups resolve initialCache trace) s).2.cache s = none := by
    rw [getEntry_none_iff]
    intro c hc
    have := hwf2.2.2 s c hc
    rw [hparse] at this
    exact Except.noConfusion this
  refine ⟨hfst.trans hparse, hnone, ?_⟩
  exact (fromString_fst hwf2 s).trans hparse

/-- Witness for C7: the failing input `"#12345"` on the empty trace. -/
theorem failures_not_memoized_witness :
    fromStringInternal idResolve "#12345" = .error Err.invalidColor ∧
      (fromString idResolve (runLookups idResolve initialCache []) "#12345").1 =
          .error Err.invalidColor ∧
        getEntry
            (fromString idResolve (runLookups idResolve initialCache [])
                "#12345").2.cache "#12345" = none ∧
        (fromString idResolve
            (fromString idResolve (runLookups idResolve initialCache [])
                "#12345").2 "#12345").1 = .error Err.invalidColor :=
  ⟨by decide, failures_not_memoized idResolve [] "#12345" Err.invalidColor (by decide)⟩

/-! Decimal string lemmas -/

lemma digitVal_digitChar : ∀ d : ℕ, d < 10 → digitVal (Nat.digitChar d) = d := by
  decide

lemma isDigitCh_digitChar : ∀ d : ℕ, d < 10 → isDigitCh (Nat.digitChar d) = true := by
  decide

lemma digit_char_ne {c : Char} (h : isDigitCh c = true) {d : Char}
    (hd : isDigitCh d = false) : ¬ c = d := by
  intro hc
  subst hc
  rw [h] at hd
  exact absurd hd (by decide)

lemma natOfDigits_append (l : List Char) (c : Char) :
    natOfDigits (l ++ [c]) = 10 * natOfDigits l + digitVal c := by
  simp [natOfDigits, List.foldl_append]

lemma natOfDigits_eq_ofDigits (l : List Char) :
    natOfDigits l = Nat.ofDigits 10 ((l.map digitVal).reverse) := by
  induction l using List.reverseRecOn with
  | nil => simp [natOfDigits, Nat.ofDigits]
  | append_singleton t c ih =>
      rw [natOfDigits_append, ih]
      simp [Nat.ofDigits_cons]
      ring

lemma natOfChars_natToChars (n : ℕ) : natOfDigits (natToChars n) = n := by
  unfold natToChars
  split_ifs with h0
  · subst h0; decide
  · rw [natOfDigits_eq_ofDigits]
    have hm : (((Nat.digits 10 n).map Nat.digitChar).reverse.map digitVal).reverse
        = Nat.digits 10 n := by
      rw [List.map_reverse, List.reverse_reverse, List.map_map]
      have hall : ∀ d ∈ Nat.digits 10 n, (digitVal ∘ Nat.digitChar) d = d :=
        fun d hd => digitVal_digitChar d (Nat.digits_lt_base (by norm_num) hd)
      rw [List.map_congr_left hall]
      exact List.map_id _
    rw [hm, Nat.ofDigits_digits]

lemma natToChars_all_digit (n : ℕ) : ∀ c ∈ natToChars n, isDigitCh c = true := by
  unfold natToChars
  split_ifs with h0
  · intro c hc
    simp only [List.mem_singleton] at hc
    subst hc
    decide
  · intro c hc
    simp only [List.mem_reverse, List.mem_map] at hc
    obtain ⟨d, hd, rfl⟩ := hc
    exact isDigitCh_digitChar d (Nat.digits_lt_base (by norm_num) hd)

lemma natToChars_ne_nil (n : ℕ) : natToChars n ≠ [] := by
  unfold natToChars
  split_ifs with h0
  · simp
  · simp [Nat.digits_ne_nil_iff_ne_zero, h0]

lemma natToChars_len_le {n k : ℕ} (hk : 1 ≤ k) (h : n < 10 ^ k) :
    (natToChars n).length ≤ k := by
  unfold natToChars
  split_ifs with h0
  · simpa using hk
  · simp only [List.length_reverse, List.length_map]
    rw [Nat.digits_len 10 n (by norm_num) h0]
    have := Nat.log_lt_of_lt_pow h0 h
    omega

lemma natOfDigits_replicate (p : ℕ) (l : List Char) :
    natOfDigits (List.replicate p '0' ++ l) = natOfDigits l := by
  induction p with
  | zero => simp
  | succ q ih =>
      rw [List.replicate_succ, List.cons_append]
      have hz : natOfDigits ('0' :: (List.replicate q '0' ++ l)) =
          natOfDigits (List.replicate q '0' ++ l) := rfl
      rw [hz, ih]

lemma takeWhile_append_of_all {p : Char → Bool} :
    ∀ l r : List Char, (∀ c ∈ l, p c = true) →
      (l ++ r).takeWhile p = l ++ r.takeWhile p := by
  intro l
  induction l with
  | nil => intro r _; simp
  | cons c t ih =>
      intro r h
      have hc : p c = true := h c (by simp)
      have ht := ih r (fun x hx => h x (by simp [hx]))
      simp [List.takeWhile_cons, hc, ht]

lemma dropWhile_append_of_all {p : Char → Bool} :
    ∀ l r : List Char, (∀ c ∈ l, p c = true) →
      (l ++ r).dropWhile p = r.dropWhile p := by
  intro l
  induction l with
  | nil => intro r _; simp
  | cons c t ih =>
      intro r h
      have hc : p c = true := h c (by simp)
      have ht := ih r (fun x hx => h x (by simp [hx]))
      simp [List.dropWhile_cons, hc, ht]

lemma dropWhile_of_all_not {p : Char → Bool} {l : List Char}
    (h : ∀ c ∈ l, p c = false) : l.dropWhile p = l := by
  cases l with
  | nil => rfl
  | cons c t => simp [List.dropWhile_cons, h c (by simp)]

lemma trimSpaces_of_no_space {l : List Char}
    (h : ∀ c ∈ l, (c == ' ') = false) : trimSpaces l = l := by
  unfold trimSpaces
  rw [dropWhile_of_all_not h]
  rw [dropWhile_of_all_not (fun c hc => h c (List.mem_reverse.mp hc))]
  exact List.reverse_reverse l

lemma splitComma_no_comma {l : List Char}
    (h : ∀ c ∈ l, (c == ',') = false) : splitComma l = [l] := by
  induction l with
  | nil => rfl
  | cons c t ih =>
      have hc : (c == ',') = false := h c (by simp)
      have ht := ih (fun x hx => h x (by simp [hx]))
      simp [splitComma, hc, ht]

lemma splitComma_append {l : List Char} (r : List Char)
    (h : ∀ c ∈ l, (c == ',') = false) :
    splitComma (l ++ ',' :: r) = l :: splitComma r := by
  induction l with
  | nil => simp [splitComma]
  | cons c t ih =>
      have hc : (c == ',') = false := h c (by simp)
      have ht := ih (fun x hx => h x (by simp [hx]))
      simp only [List.cons_append, splitComma, hc, Bool.false_eq_true, if_false]
      rw [show t.append (',' :: r) = t ++ ',' :: r from rfl, ht]

/-! Round-trip lemmas for the `Number()` conversion -/

lemma jsNumberCore_digits {l : List Char} (hne : l ≠ [])
    (h : ∀ c ∈ l, isDigitCh c = true) :
    jsNumberCore l = some ((natOfDigits l : ℚ)) := by
  have htake : l.takeWhile isDigitCh = l := by
    have := takeWhile_append_of_all l [] h
    simpa using this
  have hdrop : l.dropWhile isDigitCh = [] := by
    have := dropWhile_append_of_all l [] h
    simpa using this
  simp [jsNumberCore, htake, hdrop, hne]

lemma jsNumberCore_frac {I F : List Char} (hI : ∀ c ∈ I, isDigitCh c = true)
    (hF : ∀ c ∈ F, isDigitCh c = true) (hne : I ≠ []) :
    jsNumberCore (I ++ '.' :: F) = some ((natOfDigits I : ℚ) +
      (natOfDigits F : ℚ) / 10 ^ F.length) := by
  have hdot : isDigitCh '.' = false := by decide
  have htake : (I ++ '.' :: F).takeWhile isDigitCh = I := by
    rw [takeWhile_append_of_all I ('.' :: F) hI]
    simp [List.takeWhile_cons, hdot]
  have hdrop : (I ++ '.' :: F).dropWhile isDigitCh = '.' :: F := by
    rw [dropWhile_append_of_all I ('.' :: F) hI]
    simp [List.dropWhile_cons, hdot]
  have hFall : F.all isDigitCh = true := List.all_eq_true.mpr hF
  simp [jsNumberCore, htake, hdrop, hFall, hne]

lemma jsNumber_digits {l : List Char} (hne : l ≠ [])
    (h : ∀ c ∈ l, isDigitCh c = true) :
    jsNumber l = some ((natOfDigits l : ℚ)) := by
  have hsp : ∀ c ∈ l, (c == ' ') = false := fun c hc =>
    beq_eq_false_iff_ne.mpr (digit_char_ne (h c hc) (by decide))
  have htrim := trimSpaces_of_no_space hsp
  obtain ⟨c, t, rfl⟩ : ∃ c t, l = c :: t := by
    cases l with
    | nil => exact absurd rfl hne
    | cons c t => exact ⟨c, t, rfl⟩
  have hcm : ¬ c = '-' := digit_char_ne (h c (by simp)) (by decide)
  have hcp : ¬ c = '+' := digit_char_ne (h c (by simp)) (by decide)
  simp only [jsNumber, htrim]
  rw [if_neg (by simp), if_neg (by simp [hcm]), if_neg (by simp [hcp])]
  exact jsNumberCore_digits hne h

lemma jsNumber_frac {I F : List Char} (hI : ∀ c ∈ I, isDigitCh c = true)
    (hF : ∀ c ∈ F, isDigitCh c = true) (hne : I ≠ []) :
    jsNumber (I ++ '.' :: F) = some ((natOfDigits I : ℚ) +
      (natOfDigits F : ℚ) / 10 ^ F.length) := by
  have hsp : ∀ c ∈ I ++ '.' :: F, (c == ' ') = false := by
    intro c hc
    rcases List.mem_append.mp hc with hcI | hcd
    · exact beq_eq_false_iff_ne.mpr (digit_char_ne (hI c hcI) (by decide))
    · rcases List.mem_cons.mp hcd with rfl | hcF
      · decide
      · exact beq_eq_false_iff_ne.mpr (digit_char_ne (hF c hcF) (by decide))
  have htrim := trimSpaces_of_no_space hsp
  have hcore := jsNumberCore_frac hI hF hne
  obtain ⟨c, t, rfl⟩ : ∃ c t, I = c :: t := by
    cases I with
    | nil => exact absurd rfl hne
    | cons c t => exact ⟨c, t, rfl⟩
  have hcm : ¬ c = '-' := digit_char_ne (hI c (by simp)) (by decide)
  have hcp : ¬ c = '+' := digit_char_ne (hI c (by simp)) (by decide)
  simp only [jsNumber]
  rw [htrim]
  rw [if_neg (by simp), if_neg (by simp [List.cons_append, hcm]),
    if_neg (by simp [List.cons_append, hcp])]
  exact hcore

/-! Finite-decimal rational lemmas -/

lemma q_mul_den (q : ℚ) : q * (q.den : ℚ) = (q.num : ℚ) := by
  have hd : ((q.den : ℚ)) ≠ 0 := by
    exact_mod_cast q.den_nz
  calc q * (q.den : ℚ)
      = ((q.num : ℚ) / (q.den : ℚ)) * (q.den : ℚ) := by rw [Rat.num_div_den]
    _ = (q.num : ℚ) := div_mul_cancel₀ _ hd

lemma den_one_of_dvd {q : ℚ} {k : ℕ} (h : q.den ∣ 10 ^ k) :
    (q * (10 : ℚ) ^ k).den = 1 := by
  obtain ⟨c, hc⟩ := h
  have he : q * (10 : ℚ) ^ k = ((q.num * c : ℤ) : ℚ) := by
    have h10 : ((10 : ℚ)) ^ k = ((10 ^ k : ℕ) : ℚ) := by push_cast; ring
    rw [h10, hc]
    push_cast
    rw [← mul_assoc, q_mul_den]
  rw [he, Rat.den_intCast]

lemma dvd_of_den_one {q : ℚ} {k : ℕ} (h : (q * (10 : ℚ) ^ k).den = 1) :
    q.den ∣ 10 ^ k := by
  have hqm : q * (10 : ℚ) ^ k = (((q * (10 : ℚ) ^ k).num : ℤ) : ℚ) := by
    conv_lhs => rw [← Rat.num_div_den (q * (10 : ℚ) ^ k), h]
    simp
  have hpk : ((10 : ℚ)) ^ k ≠ 0 := by positivity
  have hq2 : q = Rat.divInt (q * (10 : ℚ) ^ k).num ((10 : ℤ) ^ k) := by
    rw [Rat.divInt_eq_div]
    rw [eq_div_iff (by push_cast; exact hpk)]
    rw [← hqm]
    push_cast
    ring
  have hdvd := Rat.den_dvd (q * (10 : ℚ) ^ k).num ((10 : ℤ) ^ k)
  rw [← hq2] at hdvd
  have h2 : ((q.den : ℤ)) ∣ (((10 : ℕ) ^ k : ℕ) : ℤ) := by
    push_cast
    push_cast at hdvd
    exact hdvd
  exact_mod_cast h2

lemma dvd_ten_pow_self {n j : ℕ} (hn : n ≠ 0) (h : n ∣ 10 ^ j) : n ∣ 10 ^ n := by
  have hpow : (10 : ℕ) ^ n ≠ 0 := by positivity
  have hpj : (10 : ℕ) ^ j ≠ 0 := by positivity
  rw [← Nat.factorization_le_iff_dvd hn hpow]
  have hle := (Nat.factorization_le_iff_dvd hn hpj).mpr h
  rw [Finsupp.le_def] at hle ⊢
  intro p
  have hp10 := hle p
  rw [Nat.factorization_pow] at hp10 ⊢
  simp only [Finsupp.smul_apply, smul_eq_mul] at hp10 ⊢
  by_cases hz : (Nat.factorization 10) p = 0
  · rw [hz] at hp10 ⊢
    simpa using hp10
  · have h1 : 1 ≤ (Nat.factorization 10) p := Nat.one_le_iff_ne_zero.mpr hz
    have h2 : n.factorization p < n := Nat.factorization_lt p hn
    calc n.factorization p ≤ n * 1 := by omega
      _ ≤ n * (Nat.factorization 10) p := Nat.mul_le_mul_left n h1

lemma int_part_eq {q : ℚ} (hden : q.den = 1) (h0 : 0 ≤ q) :
    q = ((q.num.toNat : ℕ) : ℚ) := by
  have hnn : 0 ≤ q.num := Rat.num_nonneg.mpr h0
  have h1 : q = ((q.num : ℤ) : ℚ) := by
    conv_lhs => rw [← Rat.num_div_den q, hden]
    simp
  rw [h1]
  exact_mod_cast (congrArg (fun z : ℤ => (z : ℚ)) (Int.toNat_of_nonneg hnn)).symm

lemma nonnegToChars_roundtrip {q : ℚ} (h0 : 0 ≤ q)
    (hfin : ∃ k, (q * (10 : ℚ) ^ k).den = 1) :
    jsNumber (nonnegToChars q) = some q := by
  by_cases hden : q.den = 1
  · rw [nonnegToChars, if_pos hden]
    rw [jsNumber_digits (natToChars_ne_nil _) (natToChars_all_digit _)]
    rw [natOfChars_natToChars]
    exact congrArg some (int_part_eq hden h0).symm
  · obtain ⟨j, hj⟩ := hfin
    have hd0 : q.den ≠ 0 := q.den_nz
    have hdvd : q.den ∣ 10 ^ q.den := dvd_ten_pow_self hd0 (dvd_of_den_one hj)
    have hden1 : (q * (10 : ℚ) ^ q.den).den = 1 := den_one_of_dvd hdvd
    have hqnn : (0 : ℚ) ≤ q * (10 : ℚ) ^ q.den := by positivity
    have hqn : (((q * (10 : ℚ) ^ q.den).num.toNat : ℕ) : ℚ) = q * (10 : ℚ) ^ q.den :=
      (int_part_eq hden1 hqnn).symm
    simp only [nonnegToChars, if_neg hden]
    generalize hgn : (q * (10 : ℚ) ^ q.den).num.toNat = n at hqn ⊢
    generalize hgk : q.den = k at hd0 hqn ⊢
    have hk1 : 1 ≤ k := Nat.one_le_iff_ne_zero.mpr hd0
    have hmlt : n % 10 ^ k < 10 ^ k := Nat.mod_lt _ (by positivity)
    have hlen : (natToChars (n % 10 ^ k)).length ≤ k := natToChars_len_le hk1 hmlt
    have hFdig : ∀ c ∈ List.replicate (k - (natToChars (n % 10 ^ k)).length) '0' ++
        natToChars (n % 10 ^ k), isDigitCh c = true := by
      intro c hc
      rcases List.mem_append.mp hc with hrep | hdig
      · rw [List.eq_of_mem_replicate hrep]
        decide
      · exact natToChars_all_digit _ c hdig
    rw [jsNumber_frac (natToChars_all_digit _) hFdig (natToChars_ne_nil _)]
    have hFlen : (List.replicate (k - (natToChars (n % 10 ^ k)).length) '0' ++
        natToChars (n % 10 ^ k)).length = k := by
      rw [List.length_append, List.length_replicate]
      omega
    rw [hFlen, natOfDigits_replicate, natOfChars_natToChars, natOfChars_natToChars]
    congr 1
    have h10 : ((10 : ℚ)) ^ k ≠ 0 := by positivity
    have hdm : 10 ^ k * (n / 10 ^ k) + n % 10 ^ k = n := Nat.div_add_mod n (10 ^ k)
    have hcast : ((n : ℕ) : ℚ) =
        (10 : ℚ) ^ k * ((n / 10 ^ k : ℕ) : ℚ) + ((n % 10 ^ k : ℕ) : ℚ) := by
      exact_mod_cast (congrArg (fun m : ℕ => (m : ℚ)) hdm).symm
    have hq : q = ((n : ℕ) : ℚ) / (10 : ℚ) ^ k := by
      rw [eq_div_iff h10]
      exact hqn.symm
    rw [hq, hcast]
    field_simp
    ring

lemma numToChars_roundtrip {q : ℚ} (h0 : 0 ≤ q)
    (hfin : ∃ k, (q * (10 : ℚ) ^ k).den = 1) :
    jsNumber (numToChars q) = some q := by
  rw [numToChars, if_neg (not_lt.mpr h0)]
  exact nonnegToChars_roundtrip h0 hfin

lemma numToChars_nat (r : ℕ) :
    jsNumber (numToChars ((r : ℕ) : ℚ)) = some ((r : ℕ) : ℚ) :=
  numToChars_roundtrip (by positivity) ⟨0, by simp [Rat.den_natCast]⟩

/-! Serializer and `rgba()` parse lemmas -/

lemma fixChannel_nat {n : ℕ} (h : n < 2 ^ 31) :
    fixChannel (some ((n : ℕ) : ℚ)) = ((n : ℕ) : ℚ) := by
  simp only [fixChannel, toInt32_natCast h]
  rw [if_pos (by push_cast; ring)]

lemma nonnegToChars_chars (q : ℚ) :
    ∀ c ∈ nonnegToChars q, isDigitCh c = true ∨ c = '.' := by
  unfold nonnegToChars
  split_ifs with hden
  · intro c hc
    exact Or.inl (natToChars_all_digit _ c hc)
  · intro c hc
    rcases List.mem_append.mp hc with h1 | h2
    · exact Or.inl (natToChars_all_digit _ c h1)
    · rcases List.mem_cons.mp h2 with rfl | h3
      · exact Or.inr rfl
      · rcases List.mem_append.mp h3 with h4 | h5
        · left
          rw [List.eq_of_mem_replicate h4]
          decide
        · exact Or.inl (natToChars_all_digit _ c h5)

lemma numToChars_chars (q : ℚ) :
    ∀ c ∈ numToChars q, isDigitCh c = true ∨ c = '.' ∨ c = '-' := by
  unfold numToChars
  split_ifs with hneg
  · intro c hc
    rcases List.mem_cons.mp hc with rfl | hc2
    · exact Or.inr (Or.inr rfl)
    · rcases nonnegToChars_chars _ c hc2 with hd | hdot
      · exact Or.inl hd
      · exact Or.inr (Or.inl hdot)
  · intro c hc
    rcases nonnegToChars_chars _ c hc with hd | hdot
    · exact Or.inl hd
    · exact Or.inr (Or.inl hdot)

lemma numToChars_no_comma (q : ℚ) : ∀ c ∈ numToChars q, (c == ',') = false := by
  intro c hc
  rcases numToChars_chars q c hc with hd | rfl | rfl
  · exact beq_eq_false_iff_ne.mpr (digit_char_ne hd (by decide))
  · decide
  · decide

lemma toString_tuple (r g b : ℕ) (a : ℚ) (hr : r < 2 ^ 31) (hg : g < 2 ^ 31)
    (hb : b < 2 ^ 31) :
    toString [some ((r : ℕ) : ℚ), some ((g : ℕ) : ℚ), some ((b : ℕ) : ℚ), some a] =
      String.mk ("rgba(".data ++ numToChars ((r : ℕ) : ℚ) ++
        ',' :: numToChars ((g : ℕ) : ℚ) ++ ',' :: numToChars ((b : ℕ) : ℚ) ++
        ',' :: numToChars a ++ [')']) := by
  simp only [toString, idx, List.getD_cons_zero, List.getD_cons_succ,
    List.length_cons, List.length_nil, jsValToChars]
  rw [fixChannel_nat hr, fixChannel_nat hg, fixChannel_nat hb]
  norm_num

lemma namedMatch_rgba (X : List Char) :
    namedMatch (String.mk ("rgba(".data ++ X)) = false := by
  simp only [namedMatch]
  rw [List.all_append]
  rw [show List.all ['r', 'g', 'b', 'a', '('] isAlphaCh = false from by decide]
  rfl

lemma parseResolved_rgba_split (R G B A : List Char)
    (hR : ∀ c ∈ R, (c == ',') = false) (hG : ∀ c ∈ G, (c == ',') = false)
    (hB : ∀ c ∈ B, (c == ',') = false) (hA : ∀ c ∈ A, (c == ',') = false) :
    parseResolved
        (String.mk ("rgba(".data ++ R ++ ',' :: G ++ ',' :: B ++ ',' :: A ++ [')'])) =
      .ok (normalize [jsNumber R, jsNumber G, jsNumber B, jsNumber A]) := by
  have hdata : (String.mk ("rgba(".data ++ R ++ ',' :: G ++ ',' :: B ++ ',' :: A ++
      [')'])).data = 'r' :: 'g' :: 'b' :: 'a' :: '(' ::
        (R ++ ',' :: G ++ ',' :: B ++ ',' :: A ++ [')']) := by
    simp
  have hhex : hexMatch (String.mk ("rgba(".data ++ R ++ ',' :: G ++ ',' :: B ++
      ',' :: A ++ [')'])) = false := by
    rw [hexMatch, hdata]
    rfl
  have hstart : startsWithStr (String.mk ("rgba(".data ++ R ++ ',' :: G ++ ',' :: B ++
      ',' :: A ++ [')'])) "rgba(" = true := by
    rw [startsWithStr, hdata]
    simp [startsWithChars]
  rw [parseResolved]
  rw [hhex]
  rw [if_neg (by simp)]
  rw [if_pos hstart]
  have hdrop : (String.mk ("rgba(".data ++ R ++ ',' :: G ++ ',' :: B ++ ',' :: A ++
      [')'])).data.drop 5 = R ++ ',' :: G ++ ',' :: B ++ ',' :: A ++ [')'] := by
    rw [hdata]
    rfl
  rw [hdrop]
  have hconcat : R ++ ',' :: G ++ ',' :: B ++ ',' :: A ++ [')'] =
      (R ++ ',' :: G ++ ',' :: B ++ ',' :: A) ++ [')'] := by
    simp
  rw [hconcat, List.dropLast_concat]
  have hassoc : ((R ++ ',' :: G) ++ ',' :: B) ++ ',' :: A =
      R ++ (',' :: (G ++ (',' :: (B ++ (',' :: A))))) := by
    simp [List.append_assoc]
  rw [hassoc]
  rw [splitComma_append (G ++ (',' :: (B ++ (',' :: A)))) hR]
  rw [splitComma_append (B ++ (',' :: A)) hG]
  rw [splitComma_append A hB]
  rw [splitComma_no_comma hA]
  rfl

lemma namedMatch_rgba5 (R G B A : List Char) :
    namedMatch (String.mk ("rgba(".data ++ R ++ ',' :: G ++ ',' :: B ++ ',' :: A ++
      [')'])) = false := by
  simp +decide [namedMatch, List.all_append]

lemma normalize_fixed {r g b : ℕ} {a : ℚ} (hr : r ≤ 255) (hg : g ≤ 255)
    (hb : b ≤ 255) (ha0 : 0 ≤ a) (ha1 : a ≤ 1) :
    normalize [some ((r : ℕ) : ℚ), some ((g : ℕ) : ℚ), some ((b : ℕ) : ℚ), some a] =
      [some ((r : ℕ) : ℚ), some ((g : ℕ) : ℚ), some ((b : ℕ) : ℚ), some a] := by
  have hch : ∀ n : ℕ, n ≤ 255 →
      clamp (some (orZero (addHalf (some ((n : ℕ) : ℚ))))) 0 255 =
        some ((n : ℕ) : ℚ) := by
    intro n hn
    have hcast : ((n : ℕ) : ℚ) = (((n : ℤ)) : ℚ) := by push_cast; ring
    rw [hcast]
    exact channel_fixed (n : ℤ) (by omega) (by omega)
  have hal : clamp (some a) 0 1 = some a := by
    simp only [clamp, Option.map_some']
    rw [max_eq_left ha0, min_eq_left ha1]
  simp only [normalize, idx, List.getD_cons_zero, List.getD_cons_succ]
  rw [hch r hr, hch g hg, hch b hb, hal]

/-- Claim C4 (amended): the round trip holds once the channels are restricted to
the representable range: for every tuple `[r, g, b, a]` with `r`, `g`, `b`
integral in `[0, 255]` and `a` a finite-decimal rational in `[0, 1]` (every
float64 in `[0, 1]` is one), re-parsing the serialized `rgba(...)` form
returns the same tuple.  Out-of-range integral channels are clamped by the
re-parse, so the original claim fails for them (see the counterexample). -/
theorem round_trip_amended :
    ∀ (resolve : String → String) (r g b : ℕ) (a : ℚ),
      r ≤ 255 → g ≤ 255 → b ≤ 255 → 0 ≤ a → a ≤ 1 →
      (∃ k : ℕ, (a * (10 : ℚ) ^ k).den = 1) →
      fromStringInternal resolve
          (toString [some ((r : ℕ) : ℚ), some ((g : ℕ) : ℚ), some ((b : ℕ) : ℚ),
            some a]) =
        .ok [some ((r : ℕ) : ℚ), some ((g : ℕ) : ℚ), some ((b : ℕ) : ℚ), some a] := by
  intro resolve r g b a hr hg hb ha0 ha1 hfin
  rw [toString_tuple r g b a (by omega) (by omega) (by omega)]
  have hnm := namedMatch_rgba5 (numToChars ((r : ℕ) : ℚ)) (numToChars ((g : ℕ) : ℚ))
    (numToChars ((b : ℕ) : ℚ)) (numToChars a)
  simp only [fromStringInternal, hnm, Bool.false_eq_true, if_false]
  rw [parseResolved_rgba_split _ _ _ _ (numToChars_no_comma _) (numToChars_no_comma _)
    (numToChars_no_comma _) (numToChars_no_comma _)]
  rw [numToChars_nat r, numToChars_nat g, numToChars_nat b,
    numToChars_roundtrip ha0 hfin]
  rw [normalize_fixed hr hg hb ha0 ha1]

/-- Counterexample for C4: the tuple `[300, 0, 0, 1]` has integral
channels and alpha in `[0, 1]`, but `parse(format(t))` clamps the
out-of-range channel: the serialized form `rgba(300,0,0,1)` re-parses to
`[255, 0, 0, 1] ≠ t`. -/
theorem round_trip_counterexample :
    fromStringInternal idResolve
        (toString [some (300 : ℚ), some 0, some 0, some 1]) =
      .ok [some 255, some 0, some 0, some 1] ∧
      fromStringInternal idResolve
          (toString [some (300 : ℚ), some 0, some 0, some 1]) ≠
        .ok [some (300 : ℚ), some 0, some 0, some 1] := by
  have hrw : ([some (300 : ℚ), some 0, some 0, some 1] : List JSNum) =
      [some ((300 : ℕ) : ℚ), some ((0 : ℕ) : ℚ), some ((0 : ℕ) : ℚ), some (1 : ℚ)] := by
    norm_num
  rw [hrw]
  rw [toString_tuple 300 0 0 1 (by norm_num) (by norm_num) (by norm_num)]
  have hnm := namedMatch_rgba5 (numToChars ((300 : ℕ) : ℚ)) (numToChars ((0 : ℕ) : ℚ))
    (numToChars ((0 : ℕ) : ℚ)) (numToChars (1 : ℚ))
  simp only [fromStringInternal, hnm, Bool.false_eq_true, if_false]
  rw [parseResolved_rgba_split _ _ _ _ (numToChars_no_comma _) (numToChars_no_comma _)
    (numToChars_no_comma _) (numToChars_no_comma _)]
  rw [numToChars_nat 300, numToChars_nat 0,
    numToChars_roundtrip (by norm_num) ⟨0, by norm_num⟩]
  have hnorm : normalize [some ((300 : ℕ) : ℚ), some ((0 : ℕ) : ℚ), some ((0 : ℕ) : ℚ),
      some (1 : ℚ)] = [some (255 : ℚ), some 0, some 0, some 1] := by
    push_cast
    simp [normalize, clamp, idx, addHalf, orZero, toInt32, truncQ]
    norm_num [max_def, min_def]
  rw [hnorm]
  refine ⟨rfl, fun hcontra => ?_⟩
  have hlist := Except.ok.inj hcontra
  have h255 : (some (255 : ℚ) : JSNum) = some ((300 : ℕ) : ℚ) := by
    injection hlist
  have : (255 : ℚ) = ((300 : ℕ) : ℚ) := Option.some.inj h255
  norm_num at this

/-- Witness for C4 (amended) at `r = 7`, `g = 8`, `b = 9`, `a = 1/2`. -/
theorem round_trip_amended_witness :
    (7 : ℕ) ≤ 255 ∧ (8 : ℕ) ≤ 255 ∧ (9 : ℕ) ≤ 255 ∧ (0 : ℚ) ≤ 1 / 2 ∧
      (1 / 2 : ℚ) ≤ 1 ∧ (∃ k : ℕ, ((1 / 2 : ℚ) * (10 : ℚ) ^ k).den = 1) ∧
      fromStringInternal idResolve
          (toString [some ((7 : ℕ) : ℚ), some ((8 : ℕ) : ℚ), some ((9 : ℕ) : ℚ),
            some (1 / 2 : ℚ)]) =
        .ok [some ((7 : ℕ) : ℚ), some ((8 : ℕ) : ℚ), some ((9 : ℕ) : ℚ),
          some (1 / 2 : ℚ)] :=
  ⟨by norm_num, by norm_num, by norm_num, by norm_num, by norm_num,
    ⟨1, by norm_num⟩,
    round_trip_amended idResolve 7 8 9 (1 / 2) (by norm_num) (by norm_num)
      (by norm_num) (by norm_num) (by norm_num) ⟨1, by norm_num⟩⟩

end OLColor
